import Mathlib

/-!
# unfuck-ai-comment: lowercasing of comments inside function bodies

A shallow embedding of `main.go`: the comment transformer
(`convertCommentToLowercase`), the scope classifier
(`isCommentInsideFunction`), the comment loop and output switch of
`processFile`, and the line pairing of `simpleDiff`.

Go strings are byte sequences; they are embedded as lists of byte values. The calls
into the Go library are embedded after the library's code: `strings.HasPrefix`,
`TrimPrefix`, `HasSuffix`, `TrimSuffix`, `Split`, the ASCII path of `strings.ToLower`,
and `ast.Inspect`. The Unicode path of `strings.ToLower` is a parameter, and the
parser, the printer and the file system are the fields of `Env`.

The syntax tree keeps what the classifier reads: which nodes are function
declarations, function literals and block statements, the positions of the braces of
their bodies, and the order in which `ast.Walk` visits the children. The comments of a
file are kept in `File.Comments`; where the Go tree points to them from a declaration
(a `Doc` field), the tree here has a node without text, since the classifier reads no
comment text from the tree.
-/

namespace UnfuckAIComment

/-! ## Strings -/

/-- A Go `string`: a sequence of bytes. -/
abbrev Str := List Nat

/-- UTF-8 encoding of one code point, used to write string literals. -/
def utf8 (c : Char) : Str :=
  let n := c.toNat
  if n < 0x80 then [n]
  else if n < 0x800 then [0xC0 + n / 64, 0x80 + n % 64]
  else if n < 0x10000 then [0xE0 + n / 4096, 0x80 + n / 64 % 64, 0x80 + n % 64]
  else [0xF0 + n / 262144, 0x80 + n / 4096 % 64, 0x80 + n / 64 % 64, 0x80 + n % 64]

/-- The bytes of a string literal of the source. -/
def ofString (s : String) : Str := s.toList.flatMap utf8

/-- Go `strings.HasPrefix`: `len(s) >= len(prefix) && s[:len(prefix)] == prefix`. -/
def HasPrefix (s pre : Str) : Bool :=
  decide (pre.length ≤ s.length) && (s.take pre.length == pre)

/-- Go `strings.HasSuffix`: `len(s) >= len(suffix) && s[len(s)-len(suffix):] == suffix`. -/
def HasSuffix (s suf : Str) : Bool :=
  decide (suf.length ≤ s.length) && (s.drop (s.length - suf.length) == suf)

/-- Go `strings.TrimPrefix`: `s[len(prefix):]` when `s` has the prefix, else `s`. -/
def TrimPrefix (s pre : Str) : Str :=
  if HasPrefix s pre then s.drop pre.length else s

/-- Go `strings.TrimSuffix`: `s[:len(s)-len(suffix)]` when `s` has the suffix, else `s`. -/
def TrimSuffix (s suf : Str) : Str :=
  if HasSuffix s suf then s.take (s.length - suf.length) else s

/-- The first loop of Go `strings.ToLower`: scans the bytes, stops at the first byte
`>= utf8.RuneSelf`, and returns `(isASCII, hasUpper)`. -/
def scanASCII : Str → Bool → Bool × Bool
  | [], hasUpper => (true, hasUpper)
  | c :: cs, hasUpper =>
    if 128 ≤ c then (false, hasUpper)
    else scanASCII cs (hasUpper || (decide (65 ≤ c) && decide (c ≤ 90)))

/-- The byte step of the ASCII path of Go `strings.ToLower`:
`if 'A' <= c && c <= 'Z' { c += 'a' - 'A' }`. -/
def lowerByte (c : Nat) : Nat :=
  if 65 ≤ c ∧ c ≤ 90 then c + 32 else c

/-- Go `strings.ToLower`. The ASCII path is the library's code; on a string with a
byte `>= 0x80` the library returns `Map(unicode.ToLower, s)`, which depends on the
Unicode case tables and enters as the parameter `mapLower`. -/
def ToLower (mapLower : Str → Str) (s : Str) : Str :=
  match scanASCII s false with
  | (true, hasUpper) => if !hasUpper then s else s.map lowerByte
  | (false, _) => mapLower s

/-! ## Comment transformer -/

/-- The function `convertCommentToLowercase` of `main.go`. -/
def convertCommentToLowercase (mapLower : Str → Str) (comment : Str) : Str :=
  if HasPrefix comment (ofString "//") then
    -- Single line comment
    let content := TrimPrefix comment (ofString "//")
    ofString "//" ++ ToLower mapLower content
  else if HasPrefix comment (ofString "/*") && HasSuffix comment (ofString "*/") then
    -- Multi-line comment
    let content := TrimSuffix (TrimPrefix comment (ofString "/*")) (ofString "*/")
    ofString "/*" ++ ToLower mapLower content ++ ofString "*/"
  else
    comment

/-! ## Syntax tree -/

/-- Go `token.Pos`. -/
abbrev Pos := Int

/-- Go `*ast.BlockStmt` over nodes `N`: the braces and the statements between them
(`Stmts` is the field `List` of the Go struct). -/
structure BlockStmt (N : Type) where
  Lbrace : Pos
  Stmts : List N
  Rbrace : Pos

/-- The nodes of a Go syntax tree, as far as `ast.Inspect` and the classifier tell them
apart. The children are listed in the order `ast.Walk` visits them, nil children left
out.
* `FuncDecl sig Body`: a `*ast.FuncDecl`; `sig` holds `Doc`, `Recv`, `Name`, `Type`;
  `Body` is `none` for a declaration without a body.
* `FuncLit typ Body`: a `*ast.FuncLit`; `typ` holds `Type`.
* `Block b`: a `*ast.BlockStmt`.
* `Other children`: a node of any other type. -/
inductive Node where
  | FuncDecl (sig : List Node) (Body : Option (BlockStmt Node))
  | FuncLit (typ : List Node) (Body : BlockStmt Node)
  | Block (b : BlockStmt Node)
  | Other (children : List Node)

/-- Go `*ast.Comment`. -/
structure Comment where
  Slash : Pos
  Text : Str
  deriving DecidableEq, Repr

/-- Go `(*ast.Comment).Pos`. -/
def Comment.Pos (c : Comment) : Pos := c.Slash

/-- Go `*ast.CommentGroup` (`Comments` is the field `List` of the Go struct). -/
structure CommentGroup where
  Comments : List Comment
  deriving DecidableEq, Repr

/-- Go `*ast.File`: the children `ast.Walk` visits (`Doc`, `Name`, `Decls`) and the
comments of the file. -/
structure File where
  Doc : Option Node
  Name : Node
  Decls : List Node
  Comments : List CommentGroup

/-- The `*ast.File` as the node handed to the visitor: not a function declaration. -/
def File.node (file : File) : Node :=
  .Other (file.Doc.toList ++ file.Name :: file.Decls)

mutual
/-- Go `ast.Inspect(node, f)`, that is `ast.Walk(inspector(f), node)`, with the state the
closure `f` captures passed explicitly: `f` is called on the node; when it returns
false the children are skipped; otherwise the children are walked in order and `f` is
called on nil. -/
def Inspect {σ : Type} (f : σ → Option Node → σ × Bool) : Node → σ → σ
  | .FuncDecl sig body, s =>
    match f s (some (.FuncDecl sig body)) with
    | (s1, false) => s1
    | (s1, true) => (f (InspectBody f body (InspectList f sig s1)) none).1
  | .FuncLit typ body, s =>
    match f s (some (.FuncLit typ body)) with
    | (s1, false) => s1
    | (s1, true) => (f (InspectBlock f body (InspectList f typ s1)) none).1
  | .Block b, s => InspectBlock f b s
  | .Other children, s =>
    match f s (some (.Other children)) with
    | (s1, false) => s1
    | (s1, true) => (f (InspectList f children s1) none).1
/-- The walk of a `*ast.BlockStmt`. -/
def InspectBlock {σ : Type} (f : σ → Option Node → σ × Bool) : BlockStmt Node → σ → σ
  | ⟨lbrace, stmts, rbrace⟩, s =>
    match f s (some (.Block ⟨lbrace, stmts, rbrace⟩)) with
    | (s1, false) => s1
    | (s1, true) => (f (InspectList f stmts s1) none).1
/-- `if n.Body != nil { Walk(v, n.Body) }`. -/
def InspectBody {σ : Type} (f : σ → Option Node → σ × Bool) :
    Option (BlockStmt Node) → σ → σ
  | none, s => s
  | some b, s => InspectBlock f b s
/-- Go `walkList`. -/
def InspectList {σ : Type} (f : σ → Option Node → σ × Bool) : List Node → σ → σ
  | [], s => s
  | n :: ns, s => InspectList f ns (Inspect f n s)
end

/-! ## Scope classifier -/

/-- The closure passed to `ast.Inspect` in `isCommentInsideFunction`; the state is the
captured variable `insideFunc`. -/
def visit (commentPos : Pos) (insideFunc : Bool) : Option Node → Bool × Bool
  | none => (insideFunc, true)
  | some (.FuncDecl _ (some body)) =>
    -- Check if comment is inside function body
    if body.Lbrace ≤ commentPos ∧ commentPos ≤ body.Rbrace then
      (true, false) -- Stop traversal
    else (insideFunc, true)
  | some _ => (insideFunc, true)

/-- The function `isCommentInsideFunction` of `main.go`. -/
def isCommentInsideFunction (file : File) (comment : Comment) : Bool :=
  let commentPos := comment.Pos
  Inspect (visit commentPos) file.node false

/-! ## The comment loop and the output switch of `processFile` -/

/-- The body of the inner loop of `processFile`, on one comment: the comment after the
step and the flag `modified` after the step. The assignment `comment.Text = lower`
changes the comment in place; it changes neither a position nor a declaration, so the
classifier is given the same `file` at every step. -/
def processComment (mapLower : Str → Str) (file : File) (comment : Comment)
    (modified : Bool) : Comment × Bool :=
  -- Check if comment is inside a function
  if isCommentInsideFunction file comment then
    let orig := comment.Text
    let lower := convertCommentToLowercase mapLower orig
    if orig ≠ lower then
      ({ comment with Text := lower }, true)
    else (comment, modified)
  else (comment, modified)

/-- The inner loop `for _, comment := range commentGroup.List`. -/
def processGroup (mapLower : Str → Str) (file : File) :
    List Comment → Bool → List Comment × Bool
  | [], modified => ([], modified)
  | comment :: rest, modified =>
    let r := processComment mapLower file comment modified
    let rs := processGroup mapLower file rest r.2
    (r.1 :: rs.1, rs.2)

/-- The outer loop `for _, commentGroup := range node.Comments`. -/
def processGroups (mapLower : Str → Str) (file : File) :
    List CommentGroup → Bool → List CommentGroup × Bool
  | [], modified => ([], modified)
  | commentGroup :: rest, modified =>
    let r := processGroup mapLower file commentGroup.Comments modified
    let rs := processGroups mapLower file rest r.2
    (⟨r.1⟩ :: rs.1, rs.2)

/-- The comment loop of `processFile` (`modified := false` and the two nested loops):
the tree after the loop and the flag `modified`. -/
def processComments (mapLower : Str → Str) (node : File) : File × Bool :=
  let r := processGroups mapLower node node.Comments false
  ({ node with Comments := r.1 }, r.2)

/-! ## The naive diff -/

/-- Go `strings.Split(s, sep)` for a separator `sep` of one byte (the program splits on
`"\n"` only): the substrings between the separators, one more than there are
separators. -/
def Split (s : Str) (sep : Nat) : List Str :=
  match s with
  | [] => [[]]
  | c :: cs =>
    if c = sep then [] :: Split cs sep
    else
      match Split cs sep with
      | [] => [[c]]
      | line :: lines => (c :: line) :: lines

/-- The loop of `simpleDiff`, from index `i` on, with the builder `diff`. -/
def simpleDiffLoop (origLines modLines : List Str) (i : Nat) (diff : Str) : Str :=
  if h : i < origLines.length ∨ i < modLines.length then
    if h1 : i ≥ origLines.length then
      have hm : i < modLines.length := by omega
      simpleDiffLoop origLines modLines (i + 1)
        (diff ++ (ofString "+ " ++ modLines[i] ++ ofString "\n"))
    else if h2 : i ≥ modLines.length then
      have ho : i < origLines.length := by omega
      simpleDiffLoop origLines modLines (i + 1)
        (diff ++ (ofString "- " ++ origLines[i] ++ ofString "\n"))
    else
      have ho : i < origLines.length := by omega
      have hm : i < modLines.length := by omega
      if origLines[i] ≠ modLines[i] then
        simpleDiffLoop origLines modLines (i + 1)
          (diff ++ (ofString "- " ++ origLines[i] ++ ofString "\n")
            ++ (ofString "+ " ++ modLines[i] ++ ofString "\n"))
      else
        simpleDiffLoop origLines modLines (i + 1) diff
  else diff
termination_by max origLines.length modLines.length - i
decreasing_by all_goals simp_wf; all_goals omega

/-- The function `simpleDiff` of `main.go`. -/
def simpleDiff (original modified : Str) : Str :=
  let origLines := Split original 10
  let modLines := Split modified 10
  simpleDiffLoop origLines modLines 0 []

/-! ## `processFile` -/

/-- What the program does to the outside world. -/
inductive Event where
  /-- `os.Create(fileName)` succeeded: the file is created or truncated. -/
  | create (fileName : Str)
  /-- `printer.Fprint(file, fset, node)` wrote `text` to the file. -/
  | write (fileName : Str) (text : Str)
  /-- Text written to standard output. -/
  | stdout (text : Str)
  /-- Text written to standard error. -/
  | stderr (text : Str)
  deriving DecidableEq, Repr

/-- The destination of `printer.Fprint`. -/
inductive Writer where
  | file (fileName : Str)
  | stdout
  | builder
  deriving DecidableEq, Repr

/-- The results of the calls `processFile` makes outside the program. An error is
given by its text (`%v`). -/
structure Env where
  /-- `parser.ParseFile(fset, fileName, nil, parser.ParseComments)`. -/
  ParseFile : Str → Except Str File
  /-- `os.Create(fileName)`: the error, if any. -/
  Create : Str → Option Str
  /-- `printer.Fprint(w, fset, node)`: the text printed, or the error. -/
  Fprint : Writer → File → Except Str Str
  /-- `os.ReadFile(fileName)`. -/
  ReadFile : Str → Except Str Str

/-- The output switch of `processFile`, reached when a comment was modified. -/
def output (env : Env) (fileName outputMode : Str) (node : File) : List Event :=
  if outputMode = ofString "inplace" then
    -- Write modified source back to file
    match env.Create fileName with
    | some err =>
      [.stderr (ofString "Error opening " ++ fileName ++ ofString " for writing: " ++ err
        ++ ofString "\n")]
    | none =>
      .create fileName ::
        match env.Fprint (.file fileName) node with
        | .error err =>
          [.stderr (ofString "Error writing to file " ++ fileName ++ ofString ": " ++ err
            ++ ofString "\n")]
        | .ok text =>
          [.write fileName text, .stdout (ofString "Updated: " ++ fileName ++ ofString "\n")]
  else if outputMode = ofString "print" then
    -- Print modified source to stdout
    match env.Fprint .stdout node with
    | .error err => [.stderr (ofString "Error writing to stdout: " ++ err ++ ofString "\n")]
    | .ok text => [.stdout text]
  else if outputMode = ofString "diff" then
    -- Generate diff output
    match env.ReadFile fileName with
    | .error err =>
      [.stderr (ofString "Error reading original file " ++ fileName ++ ofString ": " ++ err
        ++ ofString "\n")]
    | .ok origBytes =>
      match env.Fprint .builder node with
      | .error err => [.stderr (ofString "Error creating diff: " ++ err ++ ofString "\n")]
      | .ok modifiedBytes =>
        [.stdout (ofString "--- " ++ fileName ++ ofString " (original)\n"),
         .stdout (ofString "+++ " ++ fileName ++ ofString " (modified)\n"),
         .stdout (simpleDiff origBytes modifiedBytes ++ ofString "\n")]
  else []

/-- The function `processFile` of `main.go`: the events it causes. -/
def processFile (mapLower : Str → Str) (env : Env) (fileName outputMode : Str) :
    List Event :=
  -- Parse the file
  match env.ParseFile fileName with
  | .error err =>
    [.stderr (ofString "Error parsing " ++ fileName ++ ofString ": " ++ err ++ ofString "\n")]
  | .ok node =>
    -- Process comments
    let r := processComments mapLower node
    -- If no comments were modified, no need to proceed
    if !r.2 then []
    else output env fileName outputMode r.1

/-! ## Definitions that follow the specification -/

mutual
/-- A node and every node below it. -/
def subnodes : Node → List Node
  | .FuncDecl sig body => .FuncDecl sig body :: (subnodesList sig ++ subnodesBody body)
  | .FuncLit typ body => .FuncLit typ body :: (subnodesList typ ++ subnodesBlock body)
  | .Block b => subnodesBlock b
  | .Other children => .Other children :: subnodesList children
/-- A block statement and every node below it. -/
def subnodesBlock : BlockStmt Node → List Node
  | ⟨lbrace, stmts, rbrace⟩ => .Block ⟨lbrace, stmts, rbrace⟩ :: subnodesList stmts
/-- The nodes of a body, when there is one. -/
def subnodesBody : Option (BlockStmt Node) → List Node
  | none => []
  | some b => subnodesBlock b
/-- The nodes of a list of trees. -/
def subnodesList : List Node → List Node
  | [] => []
  | n :: ns => subnodes n ++ subnodesList ns
end

/-- The specification's "inside some function body": the file contains a function
declaration with a body whose braces enclose the position, bounds included. -/
def InFuncDeclBody (file : File) (p : Pos) : Prop :=
  ∃ sig body, Node.FuncDecl sig (some body) ∈ subnodes file.node
    ∧ body.Lbrace ≤ p ∧ p ≤ body.Rbrace

/-- The closure of `isCommentInsideFunction` without the stop at the first match: it sets
the flag and goes on into the children. -/
def visitAll (commentPos : Pos) (insideFunc : Bool) : Option Node → Bool × Bool
  | none => (insideFunc, true)
  | some (.FuncDecl _ (some body)) =>
    if body.Lbrace ≤ commentPos ∧ commentPos ≤ body.Rbrace then (true, true)
    else (insideFunc, true)
  | some _ => (insideFunc, true)

/-- The test the closure of `isCommentInsideFunction` makes on a node: a function
declaration with a body whose braces enclose `p`. -/
def isMatch (p : Pos) : Node → Bool
  | .FuncDecl _ (some body) => decide (body.Lbrace ≤ p ∧ p ≤ body.Rbrace)
  | _ => false

/-- The comment the loop of `processFile` is to leave in place of `c`, in the words of
the specification: lowercased when `c` is classified inside, `c` itself otherwise. -/
def lowered (mapLower : Str → Str) (file : File) (c : Comment) : Comment :=
  if isCommentInsideFunction file c then
    { Slash := c.Slash, Text := convertCommentToLowercase mapLower c.Text }
  else c

/-- The comment at index `j` of the comment group at index `i` of a file. -/
def commentAt (file : File) (i j : Nat) : Option Comment :=
  (file.Comments[i]?).bind fun g => g.Comments[j]?

/-- The lines of the diff for index `i`, in the words of the specification. -/
def diffLines (o m : List Str) (i : Nat) : Str :=
  if i ≥ o.length then ofString "+ " ++ m.getD i [] ++ ofString "\n"
  else if i ≥ m.length then ofString "- " ++ o.getD i [] ++ ofString "\n"
  else if o.getD i [] ≠ m.getD i [] then
    ofString "- " ++ o.getD i [] ++ ofString "\n" ++ (ofString "+ " ++ m.getD i [] ++ ofString "\n")
  else []

/-- The naive positional pairing of the specification: the lines of every index below
`max (len o) (len m)`, in increasing order. -/
def pairLines (o m : List Str) : Str :=
  ((List.range (max o.length m.length)).map (diffLines o m)).flatten

/-- The text whose lines are `lines`: the lines with one `"\n"` between each two. -/
def joinLines : List Str → Str
  | [] => []
  | [line] => line
  | line :: next :: rest => line ++ 10 :: joinLines (next :: rest)

/-- The lists of lines of a text: at least one line, and no `"\n"` inside a line. -/
def IsLines (lines : List Str) : Prop :=
  lines ≠ [] ∧ ∀ line ∈ lines, 10 ∉ line

/-! ## A sample file -/

/-- The tree and the comments of the Go file (tabs for indentation, positions counted
from 1)
```
package p

// Top Comment
func f() {
	// Hello World
	g := func() {
		/* Inner Note */
	}
	_ = g
}

// After F
var h = func() {
	// In Literal
}

func ext()
```
The braces of the body of `f` stand at 36 and 98, those of the literal in `f` at 67 and
89, those of the literal that initialises `h` at 127 and 144; the comments start at 12,
39, 71, 101 and 130. -/
def sampleFile : File :=
  { Doc := none
    Name := .Other []
    Decls :=
      [ -- func f: Doc, Name, Type; Body
        .FuncDecl [.Other [.Other []], .Other [], .Other [.Other []]]
          (some ⟨36,
            [ -- g := func() { ... }
              .Other [.Other [], .FuncLit [.Other [.Other []]] ⟨67, [], 89⟩],
              -- _ = g
              .Other [.Other [], .Other []] ],
            98⟩),
        -- var h = func() { ... }: Doc, one ValueSpec
        .Other [.Other [.Other []],
          .Other [.Other [], .FuncLit [.Other [.Other []]] ⟨127, [], 144⟩]],
        -- func ext(): Name, Type; no body
        .FuncDecl [.Other [], .Other [.Other []]] none ]
    Comments :=
      [ ⟨[⟨12, ofString "// Top Comment"⟩]⟩,
        ⟨[⟨39, ofString "// Hello World"⟩]⟩,
        ⟨[⟨71, ofString "/* Inner Note */"⟩]⟩,
        ⟨[⟨101, ofString "// After F"⟩]⟩,
        ⟨[⟨130, ofString "// In Literal"⟩]⟩ ] }

/-- The body of `f` in the sample file. -/
def sampleBody : BlockStmt Node :=
  ⟨36,
    [ .Other [.Other [], .FuncLit [.Other [.Other []]] ⟨67, [], 89⟩],
      .Other [.Other [], .Other []] ],
    98⟩

/-- The sample file with the comments in the body of `f` already in lower case. -/
def sampleLowered : File :=
  { sampleFile with
    Comments :=
      [ ⟨[⟨12, ofString "// Top Comment"⟩]⟩,
        ⟨[⟨39, ofString "// hello world"⟩]⟩,
        ⟨[⟨71, ofString "/* inner note */"⟩]⟩,
        ⟨[⟨101, ofString "// After F"⟩]⟩,
        ⟨[⟨130, ofString "// In Literal"⟩]⟩ ] }

/-- An environment in which parsing gives the sample file with the comments in `f` in
lower case and every other call succeeds. -/
def sampleEnv : Env :=
  { ParseFile := fun _ => .ok sampleLowered
    Create := fun _ => none
    Fprint := fun _ _ => .ok (ofString "package p\n")
    ReadFile := fun _ => .ok (ofString "package p\n") }

/-- An environment in which parsing gives the sample file and every other call
succeeds. -/
def sampleEnvUpper : Env :=
  { sampleEnv with ParseFile := fun _ => .ok sampleFile }

/-! ## Lemmas on strings -/

theorem ofString_slashes : ofString "//" = [47, 47] := by decide

theorem ofString_open : ofString "/*" = [47, 42] := by decide

theorem ofString_close : ofString "*/" = [42, 47] := by decide

theorem hasPrefix_append (pre s : Str) : HasPrefix (pre ++ s) pre = true := by
  simp [HasPrefix]

theorem trimPrefix_append (pre s : Str) : TrimPrefix (pre ++ s) pre = s := by
  simp [TrimPrefix, hasPrefix_append]

theorem hasSuffix_append (s suf : Str) : HasSuffix (s ++ suf) suf = true := by
  simp [HasSuffix]

theorem trimSuffix_append (s suf : Str) : TrimSuffix (s ++ suf) suf = s := by
  simp [TrimSuffix, hasSuffix_append]

theorem convert_line (mapLower : Str → Str) (c : Str) :
    convertCommentToLowercase mapLower (ofString "//" ++ c)
      = ofString "//" ++ ToLower mapLower c := by
  simp [convertCommentToLowercase, hasPrefix_append, trimPrefix_append]

theorem convert_block (mapLower : Str → Str) (c : Str) :
    convertCommentToLowercase mapLower (ofString "/*" ++ c ++ ofString "*/")
      = ofString "/*" ++ ToLower mapLower c ++ ofString "*/" := by
  have h1 : HasPrefix (ofString "/*" ++ c ++ ofString "*/") (ofString "//") = false := by
    simp [HasPrefix, ofString_slashes, ofString_open]
  have h2 : HasPrefix (ofString "/*" ++ c ++ ofString "*/") (ofString "/*") = true := by
    rw [List.append_assoc]; exact hasPrefix_append _ _
  have h3 : HasSuffix (ofString "/*" ++ c ++ ofString "*/") (ofString "*/") = true :=
    hasSuffix_append _ _
  have h4 : TrimPrefix (ofString "/*" ++ c ++ ofString "*/") (ofString "/*")
      = c ++ ofString "*/" := by
    rw [List.append_assoc]; exact trimPrefix_append _ _
  unfold convertCommentToLowercase
  rw [if_neg (by rw [h1]; exact Bool.false_ne_true), h2, h3, h4, trimSuffix_append]
  rfl

theorem hasPrefix_split (s pre : Str) (h : HasPrefix s pre = true) :
    s = pre ++ s.drop pre.length := by
  simp only [HasPrefix, Bool.and_eq_true, decide_eq_true_eq, beq_iff_eq] at h
  conv_lhs => rw [← List.take_append_drop pre.length s, h.2]

theorem hasSuffix_split (s suf : Str) (h : HasSuffix s suf = true) :
    s = s.take (s.length - suf.length) ++ suf := by
  simp only [HasSuffix, Bool.and_eq_true, decide_eq_true_eq, beq_iff_eq] at h
  conv_lhs => rw [← List.take_append_drop (s.length - suf.length) s, h.2]

theorem scanASCII_map_lowerByte (s : Str) :
    ∀ b b2 : Bool, (scanASCII s b).1 = true →
      scanASCII (s.map lowerByte) b2 = (true, b2) := by
  induction s with
  | nil => intro b b2 _; rfl
  | cons c cs ih =>
    intro b b2 h
    by_cases hc : 128 ≤ c
    · simp [scanASCII, hc] at h
    · simp only [scanASCII, hc, if_false] at h
      have h1 : ¬ 128 ≤ lowerByte c := by unfold lowerByte; split <;> omega
      have h2 : (decide (65 ≤ lowerByte c) && decide (lowerByte c ≤ 90)) = false := by
        unfold lowerByte
        split <;> simp <;> omega
      simp only [List.map_cons, scanASCII, h1, if_false, h2, Bool.or_false]
      exact ih _ b2 h

/-- On the ASCII path `ToLower` is idempotent; on the other path this is the
hypothesis on the library's rune mapping. -/
theorem toLower_idem (mapLower : Str → Str)
    (hmap : ∀ s : Str, (scanASCII s false).1 = false →
      ToLower mapLower (mapLower s) = mapLower s) (s : Str) :
    ToLower mapLower (ToLower mapLower s) = ToLower mapLower s := by
  rcases hscan : scanASCII s false with ⟨a, u⟩
  cases a with
  | false =>
    have h1 : ToLower mapLower s = mapLower s := by simp [ToLower, hscan]
    rw [h1]
    exact hmap s (by rw [hscan])
  | true =>
    cases u with
    | false =>
      have h1 : ToLower mapLower s = s := by simp [ToLower, hscan]
      rw [h1, h1]
    | true =>
      have h1 : ToLower mapLower s = s.map lowerByte := by simp [ToLower, hscan]
      have h2 : scanASCII (s.map lowerByte) false = (true, false) :=
        scanASCII_map_lowerByte s false false (by rw [hscan])
      rw [h1]
      simp [ToLower, h2]

theorem convert_idem (mapLower : Str → Str)
    (hmap : ∀ s : Str, (scanASCII s false).1 = false →
      ToLower mapLower (mapLower s) = mapLower s) (s : Str) :
    convertCommentToLowercase mapLower (convertCommentToLowercase mapLower s)
      = convertCommentToLowercase mapLower s := by
  by_cases h1 : HasPrefix s (ofString "//") = true
  · have e : convertCommentToLowercase mapLower s
        = ofString "//" ++ ToLower mapLower (TrimPrefix s (ofString "//")) := by
      simp [convertCommentToLowercase, h1]
    rw [e, convert_line, toLower_idem mapLower hmap]
  · by_cases h2 : (HasPrefix s (ofString "/*") && HasSuffix s (ofString "*/")) = true
    · have e : convertCommentToLowercase mapLower s
          = ofString "/*"
            ++ ToLower mapLower (TrimSuffix (TrimPrefix s (ofString "/*")) (ofString "*/"))
            ++ ofString "*/" := by
        unfold convertCommentToLowercase
        rw [if_neg h1, if_pos h2]
      rw [e, convert_block, toLower_idem mapLower hmap]
    · have e : convertCommentToLowercase mapLower s = s := by
        unfold convertCommentToLowercase
        rw [if_neg h1, if_neg h2]
      rw [e, e]

theorem hasSuffix_append_left (pre t suf : Str) (h : suf.length ≤ t.length) :
    HasSuffix (pre ++ t) suf = HasSuffix t suf := by
  unfold HasSuffix
  have h1 : (pre ++ t).length - suf.length = pre.length + (t.length - suf.length) := by
    rw [List.length_append]; omega
  have h2 : suf.length ≤ (pre ++ t).length := by
    rw [List.length_append]; omega
  rw [h1, List.drop_append]
  simp only [h, h2, decide_True, Bool.true_and]

/-- The test of the block branch passes on the strings `"/*" + interior + "*/"` and on
`/*/`, where the two delimiters share the star, and on no other string. -/
theorem block_test_iff (s : Str) :
    (HasPrefix s (ofString "/*") && HasSuffix s (ofString "*/")) = true ↔
      (∃ interior : Str, s = ofString "/*" ++ interior ++ ofString "*/")
        ∨ s = ofString "/*/" := by
  constructor
  · intro h
    rw [Bool.and_eq_true] at h
    obtain ⟨hp, hs⟩ := h
    have e := hasPrefix_split s _ hp
    generalize s.drop (ofString "/*").length = t at e
    subst e
    by_cases hl : (ofString "*/").length ≤ t.length
    · rw [hasSuffix_append_left _ _ _ hl] at hs
      have e2 := hasSuffix_split t _ hs
      left
      refine ⟨t.take (t.length - (ofString "*/").length), ?_⟩
      rw [List.append_assoc, ← e2]
    · right
      rw [ofString_close] at hl
      simp only [List.length_cons, List.length_nil] at hl
      match t, hl, hs with
      | [], _, hs => simp [HasSuffix, ofString_open, ofString_close] at hs
      | [c], _, hs =>
        simp [HasSuffix, ofString_open, ofString_close] at hs
        subst hs
        decide
      | _ :: _ :: _, hl, _ => simp at hl
  · rintro (⟨interior, rfl⟩ | rfl)
    · rw [Bool.and_eq_true]
      exact ⟨by rw [List.append_assoc]; exact hasPrefix_append _ _, hasSuffix_append _ _⟩
    · decide

/-- Apart from `/*/`, a string that does not start with `//` and is not
`"/*" + interior + "*/"` is returned unchanged. -/
theorem convert_unchanged (mapLower : Str → Str) (s : Str)
    (h1 : HasPrefix s (ofString "//") = false)
    (h2 : ∀ interior : Str, s ≠ ofString "/*" ++ interior ++ ofString "*/")
    (h3 : s ≠ ofString "/*/") :
    convertCommentToLowercase mapLower s = s := by
  have hb : ¬ (HasPrefix s (ofString "/*") && HasSuffix s (ofString "*/")) = true := by
    rw [block_test_iff]
    rintro (⟨interior, e⟩ | e)
    · exact h2 interior e
    · exact h3 e
  unfold convertCommentToLowercase
  rw [if_neg (by rw [h1]; exact Bool.false_ne_true), if_neg hb]

/-- The identity as rune mapping: a mapping that meets the hypothesis of `toLower_idem`. -/
theorem toLower_id_fixed (s : Str) (h : (scanASCII s false).1 = false) :
    ToLower id (id s) = id s := by
  rcases hscan : scanASCII s false with ⟨a, u⟩
  rw [hscan] at h
  simp only at h
  subst h
  simp [ToLower, hscan]

/-! ## Lemmas on the classifier -/

mutual
theorem inspect_visit (p : Pos) :
    ∀ (n : Node) (s : Bool), Inspect (visit p) n s = (s || (subnodes n).any (isMatch p))
  | .FuncDecl sig none, s => by
    simp [Inspect, visit, subnodes, subnodesBody, InspectBody, isMatch,
      inspectList_visit p sig s]
  | .FuncDecl sig (some body), s => by
    by_cases h : body.Lbrace ≤ p ∧ p ≤ body.Rbrace
    · simp [Inspect, visit, subnodes, isMatch, h]
    · simp [Inspect, visit, subnodes, subnodesBody, InspectBody, isMatch, h,
        inspectList_visit p sig s, inspectBlock_visit p body, Bool.or_assoc]
  | .FuncLit typ body, s => by
    simp [Inspect, visit, subnodes, isMatch, inspectList_visit p typ s,
      inspectBlock_visit p body, Bool.or_assoc]
  | .Block b, s => by
    simp [Inspect, subnodes, inspectBlock_visit p b s]
  | .Other children, s => by
    simp [Inspect, visit, subnodes, isMatch, inspectList_visit p children s]
theorem inspectBlock_visit (p : Pos) :
    ∀ (b : BlockStmt Node) (s : Bool),
      InspectBlock (visit p) b s = (s || (subnodesBlock b).any (isMatch p))
  | ⟨lbrace, stmts, rbrace⟩, s => by
    simp [InspectBlock, visit, subnodesBlock, isMatch, inspectList_visit p stmts s]
theorem inspectList_visit (p : Pos) :
    ∀ (ns : List Node) (s : Bool),
      InspectList (visit p) ns s = (s || (subnodesList ns).any (isMatch p))
  | [], s => by simp [InspectList, subnodesList]
  | n :: ns, s => by
    simp [InspectList, subnodesList, inspect_visit p n s, inspectList_visit p ns,
      Bool.or_assoc]
end

mutual
theorem inspect_visitAll (p : Pos) :
    ∀ (n : Node) (s : Bool), Inspect (visitAll p) n s = (s || (subnodes n).any (isMatch p))
  | .FuncDecl sig none, s => by
    simp [Inspect, visitAll, subnodes, subnodesBody, InspectBody, isMatch,
      inspectList_visitAll p sig s]
  | .FuncDecl sig (some body), s => by
    by_cases h : body.Lbrace ≤ p ∧ p ≤ body.Rbrace
    · simp [Inspect, visitAll, subnodes, subnodesBody, InspectBody, isMatch, h,
        inspectList_visitAll p sig, inspectBlock_visitAll p body]
    · simp [Inspect, visitAll, subnodes, subnodesBody, InspectBody, isMatch, h,
        inspectList_visitAll p sig s, inspectBlock_visitAll p body, Bool.or_assoc]
  | .FuncLit typ body, s => by
    simp [Inspect, visitAll, subnodes, isMatch, inspectList_visitAll p typ s,
      inspectBlock_visitAll p body, Bool.or_assoc]
  | .Block b, s => by
    simp [Inspect, subnodes, inspectBlock_visitAll p b s]
  | .Other children, s => by
    simp [Inspect, visitAll, subnodes, isMatch, inspectList_visitAll p children s]
theorem inspectBlock_visitAll (p : Pos) :
    ∀ (b : BlockStmt Node) (s : Bool),
      InspectBlock (visitAll p) b s = (s || (subnodesBlock b).any (isMatch p))
  | ⟨lbrace, stmts, rbrace⟩, s => by
    simp [InspectBlock, visitAll, subnodesBlock, isMatch, inspectList_visitAll p stmts s]
theorem inspectList_visitAll (p : Pos) :
    ∀ (ns : List Node) (s : Bool),
      InspectList (visitAll p) ns s = (s || (subnodesList ns).any (isMatch p))
  | [], s => by simp [InspectList, subnodesList]
  | n :: ns, s => by
    simp [InspectList, subnodesList, inspect_visitAll p n s, inspectList_visitAll p ns,
      Bool.or_assoc]
end

theorem any_isMatch_iff (p : Pos) (l : List Node) :
    l.any (isMatch p) = true ↔
      ∃ sig body, Node.FuncDecl sig (some body) ∈ l ∧ body.Lbrace ≤ p ∧ p ≤ body.Rbrace := by
  rw [List.any_eq_true]
  constructor
  · rintro ⟨n, hn, hm⟩
    cases n with
    | FuncDecl sig body =>
      cases body with
      | none => simp [isMatch] at hm
      | some body =>
        refine ⟨sig, body, hn, ?_⟩
        simpa [isMatch] using hm
    | FuncLit typ body => simp [isMatch] at hm
    | Block b => simp [isMatch] at hm
    | Other children => simp [isMatch] at hm
  · rintro ⟨sig, body, hn, h⟩
    exact ⟨_, hn, by simpa [isMatch] using h⟩

theorem inside_eq_any (file : File) (c : Comment) :
    isCommentInsideFunction file c = (subnodes file.node).any (isMatch c.Pos) := by
  simp [isCommentInsideFunction, inspect_visit]

theorem inside_iff (file : File) (c : Comment) :
    isCommentInsideFunction file c = true ↔ InFuncDeclBody file c.Pos := by
  rw [inside_eq_any, any_isMatch_iff]
  rfl

/-! ## Lemmas on the comment loop -/

theorem processComment_fst (mapLower : Str → Str) (file : File) (c : Comment) (m : Bool) :
    (processComment mapLower file c m).1 = lowered mapLower file c := by
  unfold processComment lowered
  by_cases h : isCommentInsideFunction file c = true
  · rw [if_pos h, if_pos h]
    by_cases h2 : c.Text = convertCommentToLowercase mapLower c.Text
    · rw [if_neg (not_not.mpr h2), ← h2]
    · rw [if_pos h2]
  · rw [if_neg h, if_neg h]

theorem lowered_ne_iff (mapLower : Str → Str) (file : File) (c : Comment) :
    lowered mapLower file c ≠ c ↔
      isCommentInsideFunction file c = true
        ∧ c.Text ≠ convertCommentToLowercase mapLower c.Text := by
  unfold lowered
  by_cases h : isCommentInsideFunction file c = true
  · rw [if_pos h]
    cases c with
    | mk sl tx =>
      simp only [ne_eq, Comment.mk.injEq, true_and, h]
      exact ⟨fun hne e => hne e.symm, fun hne e => hne e.symm⟩
  · rw [if_neg h]
    simp [h]

theorem processComment_snd (mapLower : Str → Str) (file : File) (c : Comment) (m : Bool) :
    (processComment mapLower file c m).2 = (m || decide (lowered mapLower file c ≠ c)) := by
  by_cases hl : lowered mapLower file c ≠ c
  · have h := (lowered_ne_iff mapLower file c).1 hl
    unfold processComment
    rw [if_pos h.1, if_pos h.2]
    simp [hl]
  · have h : ¬ (isCommentInsideFunction file c = true
        ∧ c.Text ≠ convertCommentToLowercase mapLower c.Text) :=
      fun h => hl ((lowered_ne_iff mapLower file c).2 h)
    unfold processComment
    by_cases h1 : isCommentInsideFunction file c = true
    · have h2 : ¬ c.Text ≠ convertCommentToLowercase mapLower c.Text := fun h2 => h ⟨h1, h2⟩
      rw [if_pos h1, if_neg h2]
      simp [hl]
    · rw [if_neg h1]
      simp [hl]

theorem processGroup_fst (mapLower : Str → Str) (file : File) :
    ∀ (cs : List Comment) (m : Bool),
      (processGroup mapLower file cs m).1 = cs.map (lowered mapLower file)
  | [], m => rfl
  | c :: cs, m => by
    simp [processGroup, processComment_fst, processGroup_fst mapLower file cs]

theorem processGroup_snd (mapLower : Str → Str) (file : File) :
    ∀ (cs : List Comment) (m : Bool),
      (processGroup mapLower file cs m).2
        = (m || cs.any fun c => decide (lowered mapLower file c ≠ c))
  | [], m => by simp [processGroup]
  | c :: cs, m => by
    simp [processGroup, processComment_snd, processGroup_snd mapLower file cs, Bool.or_assoc]

theorem processGroups_fst (mapLower : Str → Str) (file : File) :
    ∀ (gs : List CommentGroup) (m : Bool),
      (processGroups mapLower file gs m).1
        = gs.map fun g => ⟨g.Comments.map (lowered mapLower file)⟩
  | [], m => rfl
  | g :: gs, m => by
    simp [processGroups, processGroup_fst, processGroups_fst mapLower file gs]

theorem processGroups_snd (mapLower : Str → Str) (file : File) :
    ∀ (gs : List CommentGroup) (m : Bool),
      (processGroups mapLower file gs m).2
        = (m || gs.any fun g => g.Comments.any fun c => decide (lowered mapLower file c ≠ c))
  | [], m => by simp [processGroups]
  | g :: gs, m => by
    simp [processGroups, processGroup_snd, processGroups_snd mapLower file gs, Bool.or_assoc]

theorem processComments_fst (mapLower : Str → Str) (file : File) :
    (processComments mapLower file).1
      = { file with
          Comments := file.Comments.map fun g => ⟨g.Comments.map (lowered mapLower file)⟩ } := by
  simp [processComments, processGroups_fst]

theorem processComments_snd (mapLower : Str → Str) (file : File) :
    (processComments mapLower file).2
      = file.Comments.any fun g =>
          g.Comments.any fun c => decide (lowered mapLower file c ≠ c) := by
  simp [processComments, processGroups_snd]

theorem commentAt_processComments (mapLower : Str → Str) (file : File) (i j : Nat) :
    commentAt (processComments mapLower file).1 i j
      = (commentAt file i j).map (lowered mapLower file) := by
  rw [processComments_fst]
  unfold commentAt
  simp only [List.getElem?_map]
  cases file.Comments[i]? with
  | none => rfl
  | some g =>
    simp only [Option.map_some', Option.some_bind, List.getElem?_map]

theorem inside_congr (file1 file2 : File) (c1 c2 : Comment)
    (hn : file1.node = file2.node) (hp : c1.Slash = c2.Slash) :
    isCommentInsideFunction file1 c1 = isCommentInsideFunction file2 c2 := by
  unfold isCommentInsideFunction Comment.Pos
  rw [hn, hp]

theorem lowered_lowered (mapLower : Str → Str)
    (hmap : ∀ s : Str, (scanASCII s false).1 = false →
      ToLower mapLower (mapLower s) = mapLower s)
    (file1 file2 : File) (hn : file2.node = file1.node) (c : Comment) :
    lowered mapLower file2 (lowered mapLower file1 c) = lowered mapLower file1 c := by
  by_cases h : isCommentInsideFunction file1 c = true
  · have e : lowered mapLower file1 c
        = { Slash := c.Slash, Text := convertCommentToLowercase mapLower c.Text } := by
      unfold lowered; rw [if_pos h]
    have h2 : isCommentInsideFunction file2
        { Slash := c.Slash, Text := convertCommentToLowercase mapLower c.Text } = true := by
      rw [← h]; exact inside_congr _ _ _ _ hn rfl
    rw [e]
    unfold lowered
    rw [if_pos h2]
    simp only [convert_idem mapLower hmap]
  · have e : lowered mapLower file1 c = c := by
      unfold lowered; rw [if_neg h]
    have h2 : ¬ isCommentInsideFunction file2 c = true := by
      rw [inside_congr file2 file1 c c hn rfl]; exact h
    rw [e]
    unfold lowered
    rw [if_neg h2]

theorem modified_iff_exists (mapLower : Str → Str) (file : File) :
    (processComments mapLower file).2 = true ↔
      ∃ g ∈ file.Comments, ∃ c ∈ g.Comments,
        isCommentInsideFunction file c = true
          ∧ c.Text ≠ convertCommentToLowercase mapLower c.Text := by
  rw [processComments_snd]
  simp only [List.any_eq_true, decide_eq_true_eq, lowered_ne_iff]

theorem map_eq_self_iff {α : Type} (f : α → α) (l : List α) :
    l.map f = l ↔ ∀ x ∈ l, f x = x := by
  induction l with
  | nil => simp
  | cons a l ih => simp [ih]

theorem modified_iff_changed (mapLower : Str → Str) (file : File) :
    (processComments mapLower file).2 = true ↔
      (processComments mapLower file).1.Comments ≠ file.Comments := by
  rw [modified_iff_exists, processComments_fst]
  simp only [ne_eq]
  constructor
  · rintro ⟨g, hg, c, hc, hne⟩ heq
    have h1 := (map_eq_self_iff _ _).1 heq g hg
    have h2 := congrArg CommentGroup.Comments h1
    simp only at h2
    exact (lowered_ne_iff mapLower file c).2 hne ((map_eq_self_iff _ _).1 h2 c hc)
  · intro hne
    by_contra hall
    apply hne
    apply (map_eq_self_iff _ _).2
    intro g hg
    have h3 : g.Comments.map (lowered mapLower file) = g.Comments := by
      apply (map_eq_self_iff _ _).2
      intro c hc
      by_contra hl
      exact hall ⟨g, hg, c, hc, (lowered_ne_iff mapLower file c).1 hl⟩
    rw [h3]

theorem lowered_congr (mapLower : Str → Str) (file1 file2 : File)
    (hn : file1.node = file2.node) :
    lowered mapLower file1 = lowered mapLower file2 := by
  funext c
  unfold lowered
  rw [inside_congr file1 file2 c c hn rfl]

theorem processComments_idem (mapLower : Str → Str)
    (hmap : ∀ s : Str, (scanASCII s false).1 = false →
      ToLower mapLower (mapLower s) = mapLower s) (file : File) :
    processComments mapLower (processComments mapLower file).1
      = ((processComments mapLower file).1, false) := by
  have hl : ∀ c, lowered mapLower file (lowered mapLower file c) = lowered mapLower file c :=
    lowered_lowered mapLower hmap file file rfl
  have hfst : (processComments mapLower file).1
      = { file with
          Comments := file.Comments.map fun g => ⟨g.Comments.map (lowered mapLower file)⟩ } :=
    processComments_fst mapLower file
  generalize (processComments mapLower file).1 = out at hfst
  have hn : out.node = file.node := by rw [hfst]; rfl
  have hc : out.Comments.map (fun g => (⟨g.Comments.map (lowered mapLower file)⟩ : CommentGroup))
      = out.Comments := by
    rw [hfst]
    simp only [List.map_map]
    apply List.map_congr_left
    intro g _
    simp only [Function.comp_apply, List.map_map, CommentGroup.mk.injEq]
    apply List.map_congr_left
    intro c _
    exact hl c
  apply Prod.ext
  · rw [processComments_fst, lowered_congr mapLower out file hn]
    simp only [hc]
  · rw [processComments_snd, lowered_congr mapLower out file hn]
    simp only
    rw [Bool.eq_false_iff]
    intro hany
    simp only [List.any_eq_true, decide_eq_true_eq] at hany
    obtain ⟨g, hg, c, hcm, hne⟩ := hany
    have h1 := (map_eq_self_iff _ _).1 hc g hg
    have h2 := congrArg CommentGroup.Comments h1
    simp only at h2
    exact hne ((map_eq_self_iff _ _).1 h2 c hcm)

/-! ## Lemmas on the diff -/

theorem simpleDiffLoop_eq (o m : List Str) :
    ∀ (k i : Nat) (diff : Str), max o.length m.length - i = k →
      simpleDiffLoop o m i diff
        = diff ++ ((List.range' i k).map (diffLines o m)).flatten := by
  intro k
  induction k with
  | zero =>
    intro i diff hk
    have hcond : ¬ (i < o.length ∨ i < m.length) := by omega
    rw [simpleDiffLoop, dif_neg hcond]
    simp
  | succ k ih =>
    intro i diff hk
    have hcond : i < o.length ∨ i < m.length := by omega
    have hk2 : max o.length m.length - (i + 1) = k := by omega
    rw [simpleDiffLoop, dif_pos hcond]
    simp only [List.range'_succ, List.map_cons, List.flatten_cons]
    by_cases h1 : i ≥ o.length
    · have hm : i < m.length := by omega
      rw [dif_pos h1, ih (i + 1) _ hk2]
      simp [diffLines, h1, hm]
    · by_cases h2 : i ≥ m.length
      · have ho : i < o.length := by omega
        rw [dif_neg h1, dif_pos h2, ih (i + 1) _ hk2]
        simp [diffLines, h1, h2, ho]
      · have ho : i < o.length := by omega
        have hm : i < m.length := by omega
        rw [dif_neg h1, dif_neg h2]
        by_cases h3 : o[i] ≠ m[i]
        · rw [if_pos h3, ih (i + 1) _ hk2]
          have h3b : ¬ o[i] = m[i] := h3
          simp [diffLines, h1, h2, ho, hm, h3b]
        · rw [if_neg h3, ih (i + 1) _ hk2]
          have h3b : o[i] = m[i] := not_not.1 h3
          simp [diffLines, h1, h2, ho, hm, h3b]

theorem split_ne_nil (s : Str) : Split s 10 ≠ [] := by
  induction s with
  | nil => simp [Split]
  | cons c cs ih =>
    unfold Split
    by_cases h : c = 10
    · simp [h]
    · rw [if_neg h]
      cases hs : Split cs 10 with
      | nil => simp
      | cons line lines => simp

theorem split_line (line : Str) (h : 10 ∉ line) : Split line 10 = [line] := by
  induction line with
  | nil => rfl
  | cons c cs ih =>
    have hc : ¬ c = 10 := fun e => h (by rw [e]; exact List.mem_cons_self _ _)
    have hcs : 10 ∉ cs := fun hm => h (List.mem_cons_of_mem _ hm)
    unfold Split
    rw [if_neg hc, ih hcs]

theorem split_line_append (line rest : Str) (h : 10 ∉ line) :
    Split (line ++ 10 :: rest) 10 = line :: Split rest 10 := by
  induction line with
  | nil =>
    show Split (10 :: rest) 10 = [] :: Split rest 10
    rw [Split, if_pos rfl]
  | cons c cs ih =>
    have hc : ¬ c = 10 := fun e => h (by rw [e]; exact List.mem_cons_self _ _)
    have hcs : 10 ∉ cs := fun hm => h (List.mem_cons_of_mem _ hm)
    show Split (c :: (cs ++ 10 :: rest)) 10 = (c :: cs) :: Split rest 10
    rw [Split, if_neg hc, ih hcs]

/-- Splitting the text of a list of lines gives the lines back. -/
theorem split_joinLines : ∀ lines : List Str, IsLines lines →
    Split (joinLines lines) 10 = lines
  | [], h => absurd rfl h.1
  | [line], h => split_line line (h.2 line (List.mem_cons_self _ _))
  | line :: next :: rest, h => by
    have h1 : 10 ∉ line := h.2 line (List.mem_cons_self _ _)
    have h2 : IsLines (next :: rest) :=
      ⟨List.cons_ne_nil _ _, fun l hl => h.2 l (List.mem_cons_of_mem _ hl)⟩
    show Split (line ++ 10 :: joinLines (next :: rest)) 10 = line :: next :: rest
    rw [split_line_append _ _ h1, split_joinLines (next :: rest) h2]

/-- Every text is the text of its lines, and its lines hold no `"\n"`. -/
theorem split_isLines (s : Str) : IsLines (Split s 10) ∧ joinLines (Split s 10) = s := by
  induction s with
  | nil => exact ⟨⟨by simp [Split], by simp [Split]⟩, rfl⟩
  | cons c cs ih =>
    obtain ⟨⟨hne, hno⟩, hj⟩ := ih
    cases hs : Split cs 10 with
    | nil => exact absurd hs hne
    | cons line lines =>
      rw [hs] at hno hj
      by_cases h : c = 10
      · have e : Split (c :: cs) 10 = [] :: line :: lines := by
          rw [Split, if_pos h, hs]
        rw [e]
        refine ⟨⟨List.cons_ne_nil _ _, ?_⟩, ?_⟩
        · intro l hl
          rcases List.mem_cons.1 hl with hl | hl
          · rw [hl]; exact List.not_mem_nil _
          · exact hno l hl
        · show [] ++ 10 :: joinLines (line :: lines) = c :: cs
          rw [hj, h]; rfl
      · have e : Split (c :: cs) 10 = (c :: line) :: lines := by
          rw [Split, if_neg h, hs]
        rw [e]
        refine ⟨⟨List.cons_ne_nil _ _, ?_⟩, ?_⟩
        · intro l hl
          rcases List.mem_cons.1 hl with hl | hl
          · rw [hl]
            intro hm
            rcases List.mem_cons.1 hm with hm | hm
            · exact h hm.symm
            · exact hno line (List.mem_cons_self _ _) hm
          · exact hno l (List.mem_cons_of_mem _ hl)
        · rw [← hj]
          cases lines with
          | nil => rfl
          | cons next rest => rfl

theorem simpleDiff_eq_pairLines (original modified : Str) :
    simpleDiff original modified = pairLines (Split original 10) (Split modified 10) := by
  unfold simpleDiff pairLines
  rw [simpleDiffLoop_eq _ _ _ 0 [] rfl, List.range_eq_range']
  simp

/-! ## Claims -/

/-- C1: `convertCommentToLowercase` keeps the delimiters and lowercases exactly the
interior: `"//" + c` becomes `"//" + ToLower(c)`, `"/*" + c + "*/"` becomes
`"/*" + ToLower(c) + "*/"` for every `c`, and `/* Hello World */` becomes
`/* hello world */`. -/
theorem C1_convert_preserves_delimiters (mapLower : Str → Str) :
    (∀ c : Str, convertCommentToLowercase mapLower (ofString "//" ++ c)
        = ofString "//" ++ ToLower mapLower c)
    ∧ (∀ c : Str, convertCommentToLowercase mapLower (ofString "/*" ++ c ++ ofString "*/")
        = ofString "/*" ++ ToLower mapLower c ++ ofString "*/")
    ∧ convertCommentToLowercase mapLower (ofString "/* Hello World */")
        = ofString "/* hello world */" := by
  refine ⟨convert_line mapLower, convert_block mapLower, ?_⟩
  have h := convert_block mapLower (ofString " Hello World ")
  exact h

/-- C2: `convertCommentToLowercase` is idempotent on every string, comment or not,
given that the library's rune mapping returns strings that `ToLower` leaves fixed. -/
theorem C2_convert_idempotent (mapLower : Str → Str)
    (hmap : ∀ s : Str, (scanASCII s false).1 = false →
      ToLower mapLower (mapLower s) = mapLower s) (s : Str) :
    convertCommentToLowercase mapLower (convertCommentToLowercase mapLower s)
      = convertCommentToLowercase mapLower s :=
  convert_idem mapLower hmap s

/-- C2 at the comment `/* Hello World */`, with the identity as rune mapping. -/
theorem C2_convert_idempotent_witness :
    (∀ s : Str, (scanASCII s false).1 = false → ToLower id (id s) = id s)
    ∧ convertCommentToLowercase id (convertCommentToLowercase id (ofString "/* Hello World */"))
      = convertCommentToLowercase id (ofString "/* Hello World */")
    ∧ convertCommentToLowercase id (ofString "/* Hello World */")
      = ofString "/* hello world */" :=
  ⟨toLower_id_fixed,
    C2_convert_idempotent id toLower_id_fixed (ofString "/* Hello World */"), by decide⟩

/-- C3: `isCommentInsideFunction` returns true exactly when the file contains a function
declaration with a body whose braces satisfy `Lbrace <= p <= Rbrace` for the comment's
position `p`. Both bounds are inclusive: the positions of the two braces of a body are
classified inside. A file whose function declarations all lack a body classifies no
comment inside. The walk that does not stop at the first match gives the same
result. -/
theorem C3_inside_iff_position_in_body (file : File) (comment : Comment) :
    (isCommentInsideFunction file comment = true ↔
      ∃ sig body, Node.FuncDecl sig (some body) ∈ subnodes file.node
        ∧ body.Lbrace ≤ comment.Pos ∧ comment.Pos ≤ body.Rbrace)
    ∧ (∀ sig body, Node.FuncDecl sig (some body) ∈ subnodes file.node →
        body.Lbrace ≤ body.Rbrace →
        (comment.Pos = body.Lbrace ∨ comment.Pos = body.Rbrace) →
        isCommentInsideFunction file comment = true)
    ∧ ((∀ sig body, Node.FuncDecl sig body ∈ subnodes file.node → body = none) →
        isCommentInsideFunction file comment = false)
    ∧ isCommentInsideFunction file comment
        = Inspect (visitAll comment.Pos) file.node false := by
  have hiff := inside_iff file comment
  refine ⟨hiff, ?_, ?_, ?_⟩
  · intro sig body hmem hle hp
    refine hiff.2 ⟨sig, body, hmem, ?_⟩
    rcases hp with hp | hp
    · rw [hp]; exact ⟨le_refl _, hle⟩
    · rw [hp]; exact ⟨hle, le_refl _⟩
  · intro hnone
    cases hc : isCommentInsideFunction file comment with
    | false => rfl
    | true =>
      obtain ⟨sig, body, hmem, _⟩ := hiff.1 hc
      exact absurd (hnone sig (some body) hmem) (by simp)
  · rw [inside_eq_any, inspect_visitAll]
    simp

/-- C3 on the sample file: the positions 36 and 98 of the braces of `f` and the position
39 between them are classified inside, the positions 35 and 99 are not, and the walk
without the stop agrees. -/
theorem C3_inside_iff_position_in_body_witness :
    isCommentInsideFunction sampleFile ⟨36, ofString "// Hello"⟩ = true
    ∧ isCommentInsideFunction sampleFile ⟨98, ofString "// Hello"⟩ = true
    ∧ isCommentInsideFunction sampleFile ⟨39, ofString "// Hello World"⟩ = true
    ∧ isCommentInsideFunction sampleFile ⟨35, ofString "// Hello"⟩ = false
    ∧ isCommentInsideFunction sampleFile ⟨99, ofString "// Hello"⟩ = false
    ∧ Inspect (visitAll 39) sampleFile.node false = true :=
  ⟨(C3_inside_iff_position_in_body sampleFile ⟨36, ofString "// Hello"⟩).2.1
      [.Other [.Other []], .Other [], .Other [.Other []]] sampleBody
      (by simp [sampleFile, sampleBody, File.node, subnodes, subnodesList, subnodesBody,
        subnodesBlock])
      (by decide) (Or.inl rfl),
    (C3_inside_iff_position_in_body sampleFile ⟨98, ofString "// Hello"⟩).2.1
      [.Other [.Other []], .Other [], .Other [.Other []]] sampleBody
      (by simp [sampleFile, sampleBody, File.node, subnodes, subnodesList, subnodesBody,
        subnodesBlock])
      (by decide) (Or.inr rfl),
    by decide, by decide, by decide, by decide⟩

/-- C4: after the comment loop of `processFile` the declarations of the tree are the
ones parsed, the comment groups and their comments are as many and in the same order,
every comment keeps its position, a comment whose position lies in the body of a
function declaration has the text `convertCommentToLowercase` gives for its original
text, and a comment outside every such body keeps its text. -/
theorem C4_loop_changes_only_inside_comments (mapLower : Str → Str) (file : File) :
    (processComments mapLower file).1.Doc = file.Doc
    ∧ (processComments mapLower file).1.Name = file.Name
    ∧ (processComments mapLower file).1.Decls = file.Decls
    ∧ List.Forall₂
        (fun g2 g => List.Forall₂
          (fun c2 c =>
            c2.Slash = c.Slash
            ∧ (InFuncDeclBody file c.Pos →
                c2.Text = convertCommentToLowercase mapLower c.Text)
            ∧ (¬ InFuncDeclBody file c.Pos → c2.Text = c.Text))
          g2.Comments g.Comments)
        (processComments mapLower file).1.Comments file.Comments := by
  rw [processComments_fst]
  refine ⟨rfl, rfl, rfl, ?_⟩
  simp only [List.forall₂_map_left_iff]
  refine List.forall₂_same.2 fun g _ => List.forall₂_same.2 fun c _ => ?_
  unfold lowered
  by_cases h : isCommentInsideFunction file c = true
  · have hin := (inside_iff file c).1 h
    rw [if_pos h]
    exact ⟨rfl, fun _ => rfl, fun hn => absurd hin hn⟩
  · have hout : ¬ InFuncDeclBody file c.Pos := fun hin => h ((inside_iff file c).2 hin)
    rw [if_neg h]
    exact ⟨rfl, fun hin => absurd hin hout, fun _ => rfl⟩

/-- C4 on the sample file: the declarations stay, the comment in `f` is lowercased, the
comments before and after `f` keep their text. -/
theorem C4_loop_changes_only_inside_comments_witness :
    (processComments id sampleFile).1.Decls = sampleFile.Decls
    ∧ commentAt (processComments id sampleFile).1 0 0 = some ⟨12, ofString "// Top Comment"⟩
    ∧ commentAt (processComments id sampleFile).1 1 0 = some ⟨39, ofString "// hello world"⟩
    ∧ commentAt (processComments id sampleFile).1 3 0 = some ⟨101, ofString "// After F"⟩ :=
  ⟨(C4_loop_changes_only_inside_comments id sampleFile).2.2.1, by decide, by decide,
    by decide⟩

/-- C5: in the sample file the comment at position 130 lies within the body (127 to
144) of the function literal that initialises the package-level variable `h`, yet
`isCommentInsideFunction` classifies it outside and the comment loop leaves its text
as it is. -/
theorem C5_function_literal_not_counted :
    Node.FuncLit [.Other [.Other []]] ⟨127, [], 144⟩ ∈ subnodes sampleFile.node
    ∧ commentAt sampleFile 4 0 = some ⟨130, ofString "// In Literal"⟩
    ∧ ((127 : Pos) ≤ 130 ∧ (130 : Pos) ≤ 144)
    ∧ isCommentInsideFunction sampleFile ⟨130, ofString "// In Literal"⟩ = false
    ∧ ∀ mapLower : Str → Str,
        commentAt (processComments mapLower sampleFile).1 4 0
          = some ⟨130, ofString "// In Literal"⟩ := by
  refine ⟨?_, by decide, by decide, by decide, fun mapLower => ?_⟩
  · simp [sampleFile, File.node, subnodes, subnodesList, subnodesBody, subnodesBlock]
  · rfl

/-- C5, amended: a function literal does not count by itself. A comment whose position
lies within the body of a function literal is classified inside exactly when the
position lies within the body of some function declaration; when it lies in none, the
comment is classified outside and the comment loop leaves it as it is. -/
theorem C5_literal_counts_only_inside_declaration (mapLower : Str → Str) (file : File)
    (typ : List Node) (lit : BlockStmt Node) (i j : Nat) (c : Comment)
    (_hlit : Node.FuncLit typ lit ∈ subnodes file.node)
    (hc : commentAt file i j = some c)
    (_hp : lit.Lbrace ≤ c.Pos ∧ c.Pos ≤ lit.Rbrace) :
    (isCommentInsideFunction file c = true ↔ InFuncDeclBody file c.Pos)
    ∧ (¬ InFuncDeclBody file c.Pos →
        isCommentInsideFunction file c = false
        ∧ commentAt (processComments mapLower file).1 i j = some c) := by
  refine ⟨inside_iff file c, fun hout => ?_⟩
  have h : ¬ isCommentInsideFunction file c = true := fun h => hout ((inside_iff file c).1 h)
  refine ⟨by simpa using h, ?_⟩
  rw [commentAt_processComments, hc, Option.map_some']
  unfold lowered
  rw [if_neg h]

/-- C5, amended, on the sample file: the comment in the literal of the package-level
variable `h` lies in no body of a function declaration and stays as it is. -/
theorem C5_literal_counts_only_inside_declaration_witness :
    isCommentInsideFunction sampleFile ⟨130, ofString "// In Literal"⟩ = false
    ∧ commentAt (processComments id sampleFile).1 4 0
        = some ⟨130, ofString "// In Literal"⟩ :=
  (C5_literal_counts_only_inside_declaration id sampleFile [.Other [.Other []]]
    ⟨127, [], 144⟩ 4 0 ⟨130, ofString "// In Literal"⟩
    (by simp [sampleFile, File.node, subnodes, subnodesList, subnodesBody, subnodesBlock])
    (by decide) (by decide)).2
    (by
      intro h
      have hin := (inside_iff sampleFile ⟨130, ofString "// In Literal"⟩).2 h
      revert hin
      decide)

/-- C6: the string `/*/` does not start with `//` and is not `"/*" + interior + "*/"`
for any interior, yet `convertCommentToLowercase` does not return it unchanged: the
tests for the opening and the closing delimiter both pass on the shared star and the
result is `/*/*/`. -/
theorem C6_overlapping_delimiters_not_unchanged :
    (HasPrefix (ofString "/*/") (ofString "//") = false
      ∧ ∀ interior : Str, ofString "/*/" ≠ ofString "/*" ++ interior ++ ofString "*/")
    ∧ ∀ mapLower : Str → Str,
        convertCommentToLowercase mapLower (ofString "/*/") = ofString "/*/*/"
        ∧ convertCommentToLowercase mapLower (ofString "/*/") ≠ ofString "/*/" := by
  refine ⟨⟨by decide, ?_⟩, ?_⟩
  · intro interior h
    have hl := congrArg List.length h
    simp [ofString_open, ofString_close] at hl
    have : (ofString "/*/").length = 3 := by decide
    omega
  · intro mapLower
    have e : convertCommentToLowercase mapLower (ofString "/*/") = ofString "/*/*/" := rfl
    rw [e]
    exact ⟨rfl, by decide⟩

/-- C6, amended: a string that does not start with `//`, is not
`"/*" + interior + "*/"` for any interior and is not `/*/` is returned unchanged by
`convertCommentToLowercase`. -/
theorem C6_malformed_unchanged_except_overlap (mapLower : Str → Str) (s : Str)
    (h1 : HasPrefix s (ofString "//") = false)
    (h2 : ∀ interior : Str, s ≠ ofString "/*" ++ interior ++ ofString "*/")
    (h3 : s ≠ ofString "/*/") :
    convertCommentToLowercase mapLower s = s :=
  convert_unchanged mapLower s h1 h2 h3

/-- C6, amended, at the unterminated comment `/* Open` and at the text `Hello`: both
are returned as they are. -/
theorem C6_malformed_unchanged_except_overlap_witness :
    convertCommentToLowercase id (ofString "/* Open") = ofString "/* Open"
    ∧ convertCommentToLowercase id (ofString "Hello") = ofString "Hello" :=
  ⟨C6_malformed_unchanged_except_overlap id (ofString "/* Open") (by decide)
      (fun interior h => by
        have hs : HasSuffix (ofString "/* Open") (ofString "*/") = true := by
          rw [h]; exact hasSuffix_append _ _
        revert hs
        decide)
      (by decide),
    C6_malformed_unchanged_except_overlap id (ofString "Hello") (by decide)
      (fun interior h => by
        have hs : HasSuffix (ofString "Hello") (ofString "*/") = true := by
          rw [h]; exact hasSuffix_append _ _
        revert hs
        decide)
      (by decide)⟩

/-- C7: when the file has no comments, or every comment in the body of a function
declaration already equals `convertCommentToLowercase` of itself, the flag `modified` is
false after the comment loop and `processFile` causes no event, whatever the output
mode. The flag is true exactly when the loop changed the comments, that is when some
comment in a body differs from `convertCommentToLowercase` of itself. -/
theorem C7_no_op_detection (mapLower : Str → Str) (file : File) :
    ((file.Comments = [] ∨ ∀ g ∈ file.Comments, ∀ c ∈ g.Comments,
          InFuncDeclBody file c.Pos → c.Text = convertCommentToLowercase mapLower c.Text) →
        (processComments mapLower file).2 = false
        ∧ ∀ (env : Env) (fileName outputMode : Str), env.ParseFile fileName = .ok file →
            processFile mapLower env fileName outputMode = [])
    ∧ ((processComments mapLower file).2 = true ↔
        (processComments mapLower file).1.Comments ≠ file.Comments)
    ∧ ((processComments mapLower file).2 = true ↔
        ∃ g ∈ file.Comments, ∃ c ∈ g.Comments,
          InFuncDeclBody file c.Pos ∧ c.Text ≠ convertCommentToLowercase mapLower c.Text) := by
  have hex : (processComments mapLower file).2 = true ↔
      ∃ g ∈ file.Comments, ∃ c ∈ g.Comments,
        InFuncDeclBody file c.Pos ∧ c.Text ≠ convertCommentToLowercase mapLower c.Text := by
    rw [modified_iff_exists]
    simp only [inside_iff]
  refine ⟨fun h => ?_, modified_iff_changed mapLower file, hex⟩
  have hfalse : (processComments mapLower file).2 = false := by
    rw [Bool.eq_false_iff]
    intro hm
    obtain ⟨g, hg, c, hc, hin, hne⟩ := hex.1 hm
    rcases h with h | h
    · rw [h] at hg
      exact absurd hg (List.not_mem_nil g)
    · exact hne (h g hg c hc hin)
  refine ⟨hfalse, fun env fileName outputMode hparse => ?_⟩
  unfold processFile
  rw [hparse]
  simp only [hfalse, Bool.not_false, if_true]

/-- C7 on the sample file with the comments in `f` in lower case: the flag is false and
`processFile` causes no event in the modes `inplace`, `print` and `diff`; on the sample
file itself the flag is true and the mode `print` writes the printed text. -/
theorem C7_no_op_detection_witness :
    (processComments id sampleLowered).2 = false
    ∧ processFile id sampleEnv (ofString "a.go") (ofString "inplace") = []
    ∧ processFile id sampleEnv (ofString "a.go") (ofString "print") = []
    ∧ processFile id sampleEnv (ofString "a.go") (ofString "diff") = []
    ∧ (processComments id sampleFile).2 = true
    ∧ processFile id sampleEnvUpper (ofString "a.go") (ofString "print")
        = [.stdout (ofString "package p\n")] := by
  have hd : ∀ g ∈ sampleLowered.Comments, ∀ c ∈ g.Comments,
      isCommentInsideFunction sampleLowered c = true →
        c.Text = convertCommentToLowercase id c.Text := by decide
  have h := (C7_no_op_detection id sampleLowered).1
    (Or.inr fun g hg c hc hin => hd g hg c hc ((inside_iff sampleLowered c).2 hin))
  exact ⟨h.1, h.2 sampleEnv _ _ rfl, h.2 sampleEnv _ _ rfl, h.2 sampleEnv _ _ rfl,
    by decide, by decide⟩

/-- C8: the comment loop of `processFile`, run on the tree the loop produced, returns
that tree unchanged with the flag `modified` false, given that the library's rune
mapping returns strings that `ToLower` leaves fixed. -/
theorem C8_transform_idempotent (mapLower : Str → Str)
    (hmap : ∀ s : Str, (scanASCII s false).1 = false →
      ToLower mapLower (mapLower s) = mapLower s) (file : File) :
    processComments mapLower (processComments mapLower file).1
      = ((processComments mapLower file).1, false) :=
  processComments_idem mapLower hmap file

/-- C8 on the sample file, with the identity as rune mapping: the first run sets the
flag and gives the sample file with the comments in `f` in lower case, the second run
changes nothing. -/
theorem C8_transform_idempotent_witness :
    (∀ s : Str, (scanASCII s false).1 = false → ToLower id (id s) = id s)
    ∧ processComments id sampleFile = (sampleLowered, true)
    ∧ processComments id (processComments id sampleFile).1
        = ((processComments id sampleFile).1, false) :=
  ⟨toLower_id_fixed, rfl, C8_transform_idempotent id toLower_id_fixed sampleFile⟩

/-- C9: `simpleDiff` pairs the lines by position. Every text is the text of exactly one
list of lines (at least one line, no `"\n"` inside a line, one `"\n"` between each two),
and that list is what splitting on `"\n"` gives. For texts `original` and `modified`
with lines `o` and `m`, the result is the concatenation, for `i` from 0 up to
`max (len o) (len m) - 1`, of `"+ " + m[i] + "\n"` when `i >= len o`, of
`"- " + o[i] + "\n"` when `i >= len m`, of both lines when `o[i]` and `m[i]` differ, and
of nothing when they are equal. `simpleDiff("// Hello", "// hello")` is
`"- // Hello\n+ // hello\n"`; a changed line followed by a removed tail, an added tail
ending in an empty line, and equal texts are as listed. -/
theorem C9_simpleDiff_positional_pairing :
    (∀ original modified : Str,
      (∃ o m : List Str, IsLines o ∧ IsLines m
        ∧ joinLines o = original ∧ joinLines m = modified)
      ∧ (∀ o m : List Str, IsLines o → IsLines m →
          joinLines o = original → joinLines m = modified →
          Split original 10 = o ∧ Split modified 10 = m
          ∧ simpleDiff original modified = pairLines o m)
      ∧ simpleDiff original modified = pairLines (Split original 10) (Split modified 10))
    ∧ simpleDiff (ofString "// Hello") (ofString "// hello")
        = ofString "- // Hello\n+ // hello\n"
    ∧ Split (ofString "a\nB\nc") 10 = [ofString "a", ofString "B", ofString "c"]
    ∧ Split (ofString "a\nb\n") 10 = [ofString "a", ofString "b", ofString ""]
    ∧ Split (ofString "") 10 = [ofString ""]
    ∧ simpleDiff (ofString "a\nB\nc") (ofString "a\nb") = ofString "- B\n+ b\n- c\n"
    ∧ simpleDiff (ofString "a") (ofString "a\nb\n") = ofString "+ b\n+ \n"
    ∧ simpleDiff (ofString "a\nb") (ofString "a\nb") = ofString "" := by
  refine ⟨fun original modified => ⟨?_, ?_, simpleDiff_eq_pairLines original modified⟩,
    ?_, by decide, by decide, by decide, ?_, ?_, ?_⟩
  · exact ⟨Split original 10, Split modified 10, (split_isLines original).1,
      (split_isLines modified).1, (split_isLines original).2, (split_isLines modified).2⟩
  · intro o m ho hm eo em
    have so : Split original 10 = o := by rw [← eo]; exact split_joinLines o ho
    have sm : Split modified 10 = m := by rw [← em]; exact split_joinLines m hm
    refine ⟨so, sm, ?_⟩
    rw [simpleDiff_eq_pairLines, so, sm]
  · rw [simpleDiff_eq_pairLines]; decide
  · rw [simpleDiff_eq_pairLines]; decide
  · rw [simpleDiff_eq_pairLines]; decide
  · rw [simpleDiff_eq_pairLines]; decide

/-- C9 at the texts `"a\nB\nc"` and `"a\nb"`, whose lines are `a`, `B`, `c` and `a`,
`b`: the second line is changed and the third removed. -/
theorem C9_simpleDiff_positional_pairing_witness :
    Split (ofString "a\nB\nc") 10 = [ofString "a", ofString "B", ofString "c"]
    ∧ Split (ofString "a\nb") 10 = [ofString "a", ofString "b"]
    ∧ simpleDiff (ofString "a\nB\nc") (ofString "a\nb")
        = pairLines [ofString "a", ofString "B", ofString "c"] [ofString "a", ofString "b"]
    ∧ pairLines [ofString "a", ofString "B", ofString "c"] [ofString "a", ofString "b"]
        = ofString "- B\n+ b\n- c\n" :=
  ⟨(((C9_simpleDiff_positional_pairing.1 (ofString "a\nB\nc") (ofString "a\nb")).2.1
      [ofString "a", ofString "B", ofString "c"] [ofString "a", ofString "b"]
      ⟨by decide, by decide⟩ ⟨by decide, by decide⟩ (by decide) (by decide))).1,
    (((C9_simpleDiff_positional_pairing.1 (ofString "a\nB\nc") (ofString "a\nb")).2.1
      [ofString "a", ofString "B", ofString "c"] [ofString "a", ofString "b"]
      ⟨by decide, by decide⟩ ⟨by decide, by decide⟩ (by decide) (by decide))).2.1,
    (((C9_simpleDiff_positional_pairing.1 (ofString "a\nB\nc") (ofString "a\nb")).2.1
      [ofString "a", ofString "B", ofString "c"] [ofString "a", ofString "b"]
      ⟨by decide, by decide⟩ ⟨by decide, by decide⟩ (by decide) (by decide))).2.2,
    by decide⟩

/-- C10: when a function declaration of the file has a body that holds a function
literal whose braces lie within the braces of that body, a comment whose position lies
within the literal's braces is classified inside and the comment loop replaces its text
by `convertCommentToLowercase` of it. -/
theorem C10_comment_in_nested_literal (mapLower : Str → Str) (file : File)
    (sig typ : List Node) (body lit : BlockStmt Node) (i j : Nat) (c : Comment)
    (hdecl : Node.FuncDecl sig (some body) ∈ subnodes file.node)
    (_hlit : Node.FuncLit typ lit ∈ subnodesBlock body)
    (hspan : body.Lbrace ≤ lit.Lbrace ∧ lit.Rbrace ≤ body.Rbrace)
    (hc : commentAt file i j = some c)
    (hp : lit.Lbrace ≤ c.Pos ∧ c.Pos ≤ lit.Rbrace) :
    isCommentInsideFunction file c = true
    ∧ commentAt (processComments mapLower file).1 i j
        = some ⟨c.Slash, convertCommentToLowercase mapLower c.Text⟩ := by
  have h : isCommentInsideFunction file c = true :=
    (inside_iff file c).2
      ⟨sig, body, hdecl, le_trans hspan.1 hp.1, le_trans hp.2 hspan.2⟩
  refine ⟨h, ?_⟩
  rw [commentAt_processComments, hc, Option.map_some']
  unfold lowered
  rw [if_pos h]

/-- C10 on the sample file: the comment `/* Inner Note */` in the function literal inside
`f` is classified inside and becomes `/* inner note */`. -/
theorem C10_comment_in_nested_literal_witness :
    isCommentInsideFunction sampleFile ⟨71, ofString "/* Inner Note */"⟩ = true
    ∧ commentAt (processComments id sampleFile).1 2 0
        = some ⟨71, ofString "/* inner note */"⟩ :=
  C10_comment_in_nested_literal id sampleFile
    [.Other [.Other []], .Other [], .Other [.Other []]] [.Other [.Other []]]
    sampleBody ⟨67, [], 89⟩ 2 0 ⟨71, ofString "/* Inner Note */"⟩
    (by simp [sampleFile, sampleBody, File.node, subnodes, subnodesList, subnodesBody,
      subnodesBlock])
    (by simp [sampleBody, subnodes, subnodesList, subnodesBody, subnodesBlock])
    (by decide) (by decide) (by decide)

end UnfuckAIComment
